import Mathlib

/-!
Shallow embedding of the incremental multi-repository changelog engine
(`vberset/resume`): the snapshot store (`src/snapshots.rs`), the commit-graph
walker's message extraction (`src/project.rs`), the hierarchical grouper
(`src/changelog.rs`) and the orchestrator fragments of `src/main.rs` that the
verified properties are about.

Conventions of the embedding:
* `BTreeMap<String-like, V>` is modelled as an association list kept strictly
  sorted by key, with `btInsert` as `BTreeMap::insert` (replace on equal key).
* The newtype wrappers `RepositoryOrigin`, `BranchName`, `CommitHash` and
  commit ids (`git2::Oid`) all wrap strings; they are modelled as `String`.
* blake3 is a deterministic function of the byte stream fed to the hasher, so
  a snapshot hash is modelled as that stream: the list of `Hasher::update`
  chunks in order.  Equal chunk sequences give equal blake3 digests.
* `usize` arithmetic is `Nat` with explicit wrap-around modulo `2 ^ 64` where
  the source can overflow.
-/

namespace Resume

/-- `BTreeMap::insert` on the sorted-association-list model of
`BTreeMap<String, β>`: place the pair at its ordered position, replacing the
value when the key is already present. -/
def btInsert {β : Type} (k : String) (v : β) : List (String × β) → List (String × β)
  | [] => [(k, v)]
  | (k', v') :: rest =>
    if k < k' then (k, v) :: (k', v') :: rest
    else if k = k' then (k, v) :: rest
    else (k', v') :: btInsert k v rest

/-- `BTreeMap::get` on the association-list model. -/
def btLookup {β : Type} (k : String) : List (String × β) → Option β
  | [] => none
  | (k', v') :: rest => if k' = k then some v' else btLookup k rest

/-- Insertions with distinct keys commute: the content of the map, not the
order of `insert` calls, determines the result. -/
theorem btInsert_comm {β : Type} (a b : String) (x y : β) (hab : a ≠ b) :
    ∀ m : List (String × β), btInsert a x (btInsert b y m) = btInsert b y (btInsert a x m) := by
  intro m
  induction m with
  | nil =>
    rcases lt_trichotomy a b with h | h | h
    · simp [btInsert, h, not_lt.mpr h.le, hab, hab.symm]
    · exact absurd h hab
    · simp [btInsert, h, not_lt.mpr h.le, hab, hab.symm]
  | cons hd tl ih =>
    obtain ⟨k, w⟩ := hd
    rcases lt_trichotomy a k with hak | hak | hak <;>
      rcases lt_trichotomy b k with hbk | hbk | hbk
    · rcases lt_trichotomy a b with h | h | h
      · simp [btInsert, hak, hbk, h, hab, hab.symm, not_lt.mpr h.le]
      · exact absurd h hab
      · simp [btInsert, hak, hbk, h, hab, hab.symm, not_lt.mpr h.le]
    · subst hbk
      simp [btInsert, hak, hab, hab.symm, lt_irrefl, not_lt.mpr hak.le]
    · simp [btInsert, hak, not_lt.mpr hbk.le, (hak.trans hbk).ne,
        not_lt.mpr (hak.trans hbk).le, hbk.ne.symm, hab, hab.symm]
    · subst hak
      simp [btInsert, hbk, hab, hab.symm, lt_irrefl, not_lt.mpr hbk.le]
    · exact absurd (hak.trans hbk.symm) hab
    · subst hak
      simp [btInsert, hbk.ne.symm, not_lt.mpr hbk.le, hab, hab.symm, lt_irrefl]
    · simp [btInsert, hbk, not_lt.mpr hak.le, (hbk.trans hak).ne,
        not_lt.mpr (hbk.trans hak).le, hak.ne.symm, hab, hab.symm]
    · subst hbk
      simp [btInsert, hak.ne.symm, not_lt.mpr hak.le, hab, hab.symm, lt_irrefl]
    · simp [btInsert, not_lt.mpr hak.le, not_lt.mpr hbk.le, hak.ne.symm, hbk.ne.symm, ih]

/-- Folding `btInsert` over a list of pairs whose keys are pairwise distinct is
invariant under permutation of the list. -/
theorem foldl_btInsert_perm {β : Type} {l₁ l₂ : List (String × β)} (hp : l₁.Perm l₂) :
    (l₁.map Prod.fst).Nodup →
    ∀ init : List (String × β),
      l₁.foldl (fun m p => btInsert p.1 p.2 m) init
        = l₂.foldl (fun m p => btInsert p.1 p.2 m) init := by
  induction hp with
  | nil => exact fun _ _ => rfl
  | cons x _ ih =>
    intro hnd init
    simp only [List.foldl_cons]
    exact ih (by simpa using hnd.of_cons) _
  | swap x y l =>
    intro hnd init
    have hxy : y.1 ≠ x.1 := by
      simp only [List.map_cons, List.nodup_cons, List.mem_cons] at hnd
      exact fun h => hnd.1 (Or.inl h)
    simp only [List.foldl_cons]
    rw [btInsert_comm x.1 y.1 x.2 y.2 (fun h => hxy h.symm) init]
  | trans h₁₂ _ ih₁ ih₂ =>
    intro hnd init
    rw [ih₁ hnd init, ih₂ ((h₁₂.map Prod.fst).nodup_iff.mp hnd) init]

/-! ## Snapshot store (`src/snapshots.rs`) -/

/-- `RepositorySnapshot = BTreeMap<BranchName, CommitHash>` (sorted
association list of branch name to commit hash). -/
abbrev RepositorySnapshot := List (String × String)

/-- A snapshot hash: the sequence of chunks `SnapshotBuilder::build` feeds to
the blake3 hasher before the single `finalize`.  blake3 being a deterministic
function of its input, two hashes are equal exactly when the chunk sequences
fed to the hasher are equal, so the chunk sequence stands in for the digest. -/
abbrev SnapshotHash := List String

/-- `Snapshot`: a hash and an ordered (`BTreeMap`) mapping from repository
origin to per-repository snapshot. -/
structure Snapshot where
  hash : SnapshotHash
  repositories : List (String × RepositorySnapshot)
deriving DecidableEq, Repr

/-- `SnapshotBuilder`: the accumulating `BTreeMap<RepositoryOrigin,
RepositorySnapshot>`. -/
structure SnapshotBuilder where
  repositories : List (String × RepositorySnapshot)
deriving DecidableEq, Repr

/-- `SnapshotBuilder::new`. -/
def SnapshotBuilder.new : SnapshotBuilder := ⟨[]⟩

/-- `SnapshotBuilder::add_repository_snapshot`: `BTreeMap::insert`. -/
def SnapshotBuilder.add_repository_snapshot (b : SnapshotBuilder) (origin : String)
    (snapshot : RepositorySnapshot) : SnapshotBuilder :=
  ⟨btInsert origin snapshot b.repositories⟩

/-- `SnapshotBuilder::build`: iterate repositories in `BTreeMap` (key) order,
feeding the hasher the origin bytes then each branch/head byte pair in branch
order, and finalize once. -/
def SnapshotBuilder.build (b : SnapshotBuilder) : Snapshot :=
  { hash :=
      b.repositories.foldl
        (fun acc p => p.2.foldl (fun acc2 q => acc2 ++ [q.1, q.2]) (acc ++ [p.1])) [],
    repositories := b.repositories }

/-- The `repo_snapshot` accumulation of `process_projects` (main.rs): a fresh
`RepositorySnapshot` into which one `(branch, head)` pair is inserted per
fetched branch, in loop order. -/
def buildRepositorySnapshot (inserts : List (String × String)) : RepositorySnapshot :=
  inserts.foldl (fun m p => btInsert p.1 p.2 m) []

/-- Feeding a builder one `add_repository_snapshot` call per listed pair, in
list order. -/
def addAll (inserts : List (String × RepositorySnapshot)) (b : SnapshotBuilder) :
    SnapshotBuilder :=
  inserts.foldl (fun b' p => b'.add_repository_snapshot p.1 p.2) b

/-- C1: for the same finite (origin, branch, commit-hash) content, the
`Snapshot` hash produced by `SnapshotBuilder::build` does not depend on the
order of `add_repository_snapshot` calls nor on the order in which the branch
entries of a repository snapshot were inserted. -/
theorem build_hash_insertion_order_independent
    (bl₁ bl₂ : List (String × String)) (hbp : bl₁.Perm bl₂)
    (hbnd : (bl₁.map Prod.fst).Nodup)
    (rl₁ rl₂ : List (String × RepositorySnapshot)) (hrp : rl₁.Perm rl₂)
    (hrnd : (rl₁.map Prod.fst).Nodup) :
    buildRepositorySnapshot bl₁ = buildRepositorySnapshot bl₂ ∧
      ((addAll rl₁ SnapshotBuilder.new).build).hash
        = ((addAll rl₂ SnapshotBuilder.new).build).hash := by
  constructor
  · exact foldl_btInsert_perm hbp hbnd []
  · have : addAll rl₁ SnapshotBuilder.new = addAll rl₂ SnapshotBuilder.new := by
      have := foldl_btInsert_perm hrp hrnd []
      unfold addAll
      apply congrArg SnapshotBuilder.mk
      have h₁ : ∀ (l : List (String × RepositorySnapshot)) (b : SnapshotBuilder),
          (addAll l b).repositories
            = l.foldl (fun m p => btInsert p.1 p.2 m) b.repositories := by
        intro l
        induction l with
        | nil => intro b; rfl
        | cons p rest ih =>
          intro b
          simpa [addAll, SnapshotBuilder.add_repository_snapshot] using
            ih ⟨btInsert p.1 p.2 b.repositories⟩
      calc (addAll rl₁ SnapshotBuilder.new).repositories
          = rl₁.foldl (fun m p => btInsert p.1 p.2 m) [] := h₁ rl₁ _
        _ = rl₂.foldl (fun m p => btInsert p.1 p.2 m) [] := foldl_btInsert_perm hrp hrnd []
        _ = (addAll rl₂ SnapshotBuilder.new).repositories := (h₁ rl₂ _).symm
    rw [this]

/-- Witness for C1 at concrete inputs: branch entries `main ↦ h1`, `dev ↦ h2`
inserted in either order, and two repositories registered in either order. -/
theorem build_hash_insertion_order_independent_witness :
    buildRepositorySnapshot [("main", "h1"), ("dev", "h2")]
        = buildRepositorySnapshot [("dev", "h2"), ("main", "h1")] ∧
      ((addAll [("r1", [("main", "h1")]), ("r2", [("dev", "h2")])]
          SnapshotBuilder.new).build).hash
        = ((addAll [("r2", [("dev", "h2")]), ("r1", [("main", "h1")])]
          SnapshotBuilder.new).build).hash :=
  build_hash_insertion_order_independent
    [("main", "h1"), ("dev", "h2")] [("dev", "h2"), ("main", "h1")]
    (List.Perm.swap _ _ _) (by decide)
    [("r1", [("main", "h1")]), ("r2", [("dev", "h2")])]
    [("r2", [("dev", "h2")]), ("r1", [("main", "h1")])]
    (List.Perm.swap _ _ _) (by decide)

/-! ## Snapshot history (`src/snapshots.rs`, `SnapshotHistory`) -/

/-- `SnapshotHistory`: the append-only ordered sequence of snapshots. -/
structure SnapshotHistory where
  snapshots : List Snapshot
deriving DecidableEq, Repr

/-- `SnapshotHistory::new`. -/
def SnapshotHistory.new : SnapshotHistory := ⟨[]⟩

/-- `SnapshotHistory::last` (`Vec::last`). -/
def SnapshotHistory.last (h : SnapshotHistory) : Option Snapshot :=
  h.snapshots.getLast?

/-- The `usize` modulus. -/
def USIZE : Nat := 2 ^ 64

/-- `len - index - 1` computed on `usize`: in a release build Rust wraps the
subtraction modulo `2 ^ 64` (both operands are below `USIZE`). -/
def usizeSubOne (len index : Nat) : Nat := (len + USIZE - (index + 1)) % USIZE

/-- The condition under which the subtraction `self.snapshots.len() - index - 1`
in `SnapshotHistory::get_by_index` underflows: with overflow checks on (the
default dev profile) the call panics exactly then. -/
def SnapshotHistory.get_by_index_underflows (h : SnapshotHistory) (index : Nat) : Bool :=
  h.snapshots.length < index + 1

/-- `SnapshotHistory::get_by_index` under release (wrapping) semantics:
`self.snapshots.get(self.snapshots.len() - index - 1)`. -/
def SnapshotHistory.get_by_index (h : SnapshotHistory) (index : Nat) : Option Snapshot :=
  h.snapshots.get? (usizeSubOne h.snapshots.length index)

/-- In range, `get_by_index` returns the snapshot at distance `index` from the
most recent entry (index 0 = latest). -/
theorem get_by_index_in_range (h : SnapshotHistory) (index : Nat)
    (hin : index < h.snapshots.length) (hlen : h.snapshots.length < USIZE) :
    h.get_by_index index = h.snapshots.get? (h.snapshots.length - index - 1) := by
  unfold SnapshotHistory.get_by_index usizeSubOne
  congr 1
  unfold USIZE at hlen ⊢
  omega

/-- C2: on the empty history (`snapshots.len() = 0`) at index 0 — an
out-of-range lookup — the subtraction `len - index - 1` underflows, so a build
with overflow checks panics instead of returning an absence; under release
(wrapping) semantics the lookup happens to return `none`. -/
theorem get_by_index_underflow_on_empty :
    SnapshotHistory.new.get_by_index_underflows 0 = true ∧
      SnapshotHistory.new.get_by_index 0 = none := by
  constructor
  · rfl
  · rfl

/-- `SnapshotHistory::push`: append only when there is no last entry or the
last entry's hash differs from the pushed snapshot's hash. -/
def SnapshotHistory.push (h : SnapshotHistory) (s : Snapshot) : SnapshotHistory :=
  if (h.last.map fun l => decide (l.hash ≠ s.hash)).getD true then
    ⟨h.snapshots ++ [s]⟩
  else h

/-- C3: `push` appends exactly when the last entry is absent or hashes differ;
pushing the same snapshot again right after is a no-op on the length; a push
whose hash differs from the last entry's grows the history by exactly one; and
`push` preserves the invariant that consecutive entries never share a hash. -/
theorem push_dedup_spec (h : SnapshotHistory) (s : Snapshot) :
    ((h.push s).snapshots = h.snapshots ++ [s]
        ↔ ∀ l, h.last = some l → l.hash ≠ s.hash) ∧
      ((h.push s).push s).snapshots.length = (h.push s).snapshots.length ∧
      (∀ l, h.last = some l → l.hash ≠ s.hash →
        (h.push s).snapshots.length = h.snapshots.length + 1) ∧
      (List.Chain' (fun a b => a.hash ≠ b.hash) h.snapshots →
        List.Chain' (fun a b => a.hash ≠ b.hash) (h.push s).snapshots) := by
  have hpush : ∀ (h' : SnapshotHistory),
      (∀ l, h'.last = some l → l.hash ≠ s.hash) →
        (h'.push s).snapshots = h'.snapshots ++ [s] := by
    intro h' hcond
    unfold SnapshotHistory.push
    cases hl : h'.last with
    | none => simp [hl]
    | some l => simp [hl, hcond l hl]
  have hskip : ∀ (h' : SnapshotHistory) (l : Snapshot), h'.last = some l →
      l.hash = s.hash → (h'.push s) = h' := by
    intro h' l hl heq
    unfold SnapshotHistory.push
    simp [hl, heq]
  refine ⟨⟨?_, hpush h⟩, ?_, ?_, ?_⟩
  · intro happ l hl heq
    have hne : (h.push s).snapshots ≠ h.snapshots := by
      rw [happ]
      intro hcontra
      have := congrArg List.length hcontra
      simp at this
    exact hne (congrArg SnapshotHistory.snapshots (hskip h l hl heq))
  · -- pushing `s` twice: the second push sees `s` (or the unchanged last) as
    -- the last entry and leaves the history unchanged.
    by_cases hcond : ∀ l, h.last = some l → l.hash ≠ s.hash
    · have h1 : (h.push s).snapshots = h.snapshots ++ [s] := hpush h hcond
      have hlast : (h.push s).last = some s := by
        unfold SnapshotHistory.last
        rw [h1, List.getLast?_append]
        rfl
      rw [hskip (h.push s) s hlast rfl]
    · push_neg at hcond
      obtain ⟨l, hl, heq⟩ := hcond
      rw [hskip h l hl heq, hskip h l hl heq]
  · intro l hl hne
    rw [hpush h (fun l' hl' => by rw [hl] at hl'; cases hl'; exact hne)]
    simp
  · intro hchain
    by_cases hcond : ∀ l, h.last = some l → l.hash ≠ s.hash
    · rw [hpush h hcond]
      rw [List.chain'_append]
      refine ⟨hchain, List.chain'_singleton s, ?_⟩
      intro x hx y hy
      cases hy
      exact hcond x hx
    · push_neg at hcond
      obtain ⟨l, hl, heq⟩ := hcond
      rw [hskip h l hl heq]
      exact hchain

/-- C10: pushing onto the empty history always appends — the deduplication
guard compares only against a last entry, and with none present the push goes
through unconditionally. -/
theorem push_on_empty_appends (s : Snapshot) :
    (SnapshotHistory.new.push s).snapshots = [s] := rfl

/-! ## Sentinels in `report_branches` (`src/main.rs` 244–269)

The git walk itself happens in the external `git2` library; what
`report_branches` controls is the sentinel set: it starts from
`Sentinels::new()`, and per branch (in configured order) it first inserts the
branch's previously recorded head when the prior snapshot has one, builds the
walker hidden behind the current set, and after `extract_messages` extends the
set with the returned new sentinels.  `walk` abstracts
`extract_messages ∘ build_walker` — from the branch name and the sentinel set
the walker is hidden behind, the new sentinels returned for that branch. -/

/-- `Sentinels = HashSet<Oid>`, modelled as a finite set of commit-id strings. -/
abbrev Sentinels := Finset String

/-- The head-seeding step at the top of the `for branch_name` loop of
`report_branches`: `if let Some(Some(head)) = snapshot.get(branch) {
sentinels.insert(head) }`. -/
def sentinelsSeed (snapshot : Option RepositorySnapshot) (branch : String)
    (sentinels : Sentinels) : Sentinels :=
  match snapshot with
  | some snap =>
    match btLookup branch snap with
    | some head => insert head sentinels
    | none => sentinels
  | none => sentinels

/-- One full iteration of the branch loop of `report_branches`: seed with the
branch's recorded head, walk with the seeded set, then extend the set with the
walk's new sentinels. -/
def reportStep (snapshot : Option RepositorySnapshot)
    (walk : String → Sentinels → Sentinels) (sentinels : Sentinels)
    (branch : String) : Sentinels :=
  let seeded := sentinelsSeed snapshot branch sentinels
  seeded ∪ walk branch seeded

/-- The sentinel set in effect after the first `k` branch iterations of
`report_branches` (the run starts from `Sentinels::new()`). -/
def sentinelsAfter (snapshot : Option RepositorySnapshot)
    (walk : String → Sentinels → Sentinels) (branches : List String)
    (k : Nat) : Sentinels :=
  (branches.take k).foldl (reportStep snapshot walk) ∅

/-- The sentinel set the walker of branch `k` is built with: the set after the
first `k` iterations, seeded with branch `k`'s recorded head. -/
def sentinelsForWalk (snapshot : Option RepositorySnapshot)
    (walk : String → Sentinels → Sentinels) (branches : List String)
    (k : Nat) : Sentinels :=
  match branches[k]? with
  | some branch => sentinelsSeed snapshot branch (sentinelsAfter snapshot walk branches k)
  | none => sentinelsAfter snapshot walk branches k

theorem subset_sentinelsSeed (snapshot : Option RepositorySnapshot) (branch : String)
    (s : Sentinels) : s ⊆ sentinelsSeed snapshot branch s := by
  cases snapshot with
  | none => simp [sentinelsSeed]
  | some snap =>
    cases hl : btLookup branch snap with
    | none => simp [sentinelsSeed, hl]
    | some head => simp [sentinelsSeed, hl, Finset.subset_insert]

theorem subset_reportStep (snapshot : Option RepositorySnapshot)
    (walk : String → Sentinels → Sentinels) (s : Sentinels) (branch : String) :
    s ⊆ reportStep snapshot walk s branch :=
  (subset_sentinelsSeed snapshot branch s).trans Finset.subset_union_left

theorem subset_foldl_reportStep (snapshot : Option RepositorySnapshot)
    (walk : String → Sentinels → Sentinels) (l : List String) :
    ∀ s : Sentinels, s ⊆ l.foldl (reportStep snapshot walk) s := by
  induction l with
  | nil => exact fun s => Finset.Subset.refl s
  | cons b rest ih =>
    intro s
    exact (subset_reportStep snapshot walk s b).trans (ih _)

theorem sentinelsAfter_succ_of_get (snapshot : Option RepositorySnapshot)
    (walk : String → Sentinels → Sentinels) (branches : List String)
    (k : Nat) (b : String) (hb : branches[k]? = some b) :
    sentinelsAfter snapshot walk branches (k + 1)
      = reportStep snapshot walk (sentinelsAfter snapshot walk branches k) b := by
  unfold sentinelsAfter
  rw [List.take_succ, hb]
  simp

theorem sentinelsAfter_mono_succ (snapshot : Option RepositorySnapshot)
    (walk : String → Sentinels → Sentinels) (branches : List String) (k : Nat) :
    sentinelsAfter snapshot walk branches k
      ⊆ sentinelsAfter snapshot walk branches (k + 1) := by
  cases hb : branches[k]? with
  | none =>
    unfold sentinelsAfter
    rw [List.take_succ, hb]
    simp
  | some b =>
    rw [sentinelsAfter_succ_of_get snapshot walk branches k b hb]
    exact subset_reportStep snapshot walk _ b

theorem sentinelsAfter_mono (snapshot : Option RepositorySnapshot)
    (walk : String → Sentinels → Sentinels) (branches : List String) :
    ∀ j k : Nat, j ≤ k →
      sentinelsAfter snapshot walk branches j ⊆ sentinelsAfter snapshot walk branches k := by
  intro j k hjk
  induction k with
  | zero =>
    cases Nat.le_zero.mp hjk
    exact Finset.Subset.refl _
  | succ n ih =>
    rcases Nat.lt_or_ge j (n + 1) with hlt | hge
    · exact (ih (Nat.lt_succ_iff.mp hlt)).trans
        (sentinelsAfter_mono_succ snapshot walk branches n)
    · cases Nat.le_antisymm hjk hge
      exact Finset.Subset.refl _

/-- C5: within one repository run, the sentinel set only grows across the
sequential branch iterations — the set after branch `k` is a superset of the
set after branch `k - 1`, and nothing is ever removed. -/
theorem sentinels_monotone (snapshot : Option RepositorySnapshot)
    (walk : String → Sentinels → Sentinels) (branches : List String)
    (k : Nat) (hk : 0 < k) :
    sentinelsAfter snapshot walk branches (k - 1)
      ⊆ sentinelsAfter snapshot walk branches k :=
  sentinelsAfter_mono snapshot walk branches (k - 1) k (Nat.sub_le k 1)

/-- Witness for C5: two branches, an empty walk oracle, `k = 1`. -/
theorem sentinels_monotone_witness :
    sentinelsAfter (some [("a", "h1"), ("b", "h2")]) (fun _ _ => ∅) ["a", "b"] 0
      ⊆ sentinelsAfter (some [("a", "h1"), ("b", "h2")]) (fun _ _ => ∅) ["a", "b"] 1 :=
  sentinels_monotone (some [("a", "h1"), ("b", "h2")]) (fun _ _ => ∅) ["a", "b"] 1
    (by decide)

/-- C4 as stated is false: with a prior snapshot recording heads for branches
`a ↦ h1` and `b ↦ h2` and branches processed in order `[a, b]`, the sentinel
set used for the walk of the first branch contains only `h1` — the recorded
head `h2` of the not-yet-processed branch `b` is missing, because
`report_branches` inserts each branch's head only just before that branch's own
walk, not all heads up front. -/
theorem seed_all_heads_counterexample :
    ¬ ("h2" ∈ sentinelsForWalk (some [("a", "h1"), ("b", "h2")])
        (fun _ _ => ∅) ["a", "b"] 0) := by
  decide

/-- C4 amended: the heads recorded in the prior snapshot are added
incrementally — the sentinel set used for the walk of branch `k` contains the
recorded head of every branch at position `j ≤ k` of the configured branch
list (each head is inserted just before its own branch's walk), though not
necessarily the heads of branches processed later. -/
theorem seed_heads_incremental (snap : RepositorySnapshot)
    (walk : String → Sentinels → Sentinels) (branches : List String)
    (j k : Nat) (hjk : j ≤ k) (bj h : String)
    (hbj : branches[j]? = some bj) (hlook : btLookup bj snap = some h) :
    h ∈ sentinelsForWalk (some snap) walk branches k := by
  have hseed : ∀ s : Sentinels, h ∈ sentinelsSeed (some snap) bj s := by
    intro s
    simp [sentinelsSeed, hlook]
  rcases Nat.eq_or_lt_of_le hjk with heq | hlt
  · subst heq
    unfold sentinelsForWalk
    rw [hbj]
    exact hseed _
  · have hmem : h ∈ sentinelsAfter (some snap) walk branches (j + 1) := by
      rw [sentinelsAfter_succ_of_get (some snap) walk branches j bj hbj]
      unfold reportStep
      exact Finset.mem_union_left _ (hseed _)
    have hmem' : h ∈ sentinelsAfter (some snap) walk branches k :=
      sentinelsAfter_mono (some snap) walk branches (j + 1) k hlt hmem
    unfold sentinelsForWalk
    cases hbk : branches[k]? with
    | none => exact hmem'
    | some bk => exact subset_sentinelsSeed (some snap) bk _ hmem'

/-- Witness for the amended C4: the head of branch `a` (position 0) is in the
sentinel set used for the walk of branch `b` (position 1). -/
theorem seed_heads_incremental_witness :
    "h1" ∈ sentinelsForWalk (some [("a", "h1"), ("b", "h2")])
      (fun _ _ => ∅) ["a", "b"] 1 :=
  seed_heads_incremental [("a", "h1"), ("b", "h2")] (fun _ _ => ∅) ["a", "b"]
    0 1 (by decide) "a" "h1" (by decide) (by decide)

/-! ## Conventional messages and `Project::extract_messages`
(`src/message.rs`, `src/project.rs` 149–176)

The pest grammar file driving `ConventionalMessage::from_str` is not part of
`src/`, so the parser stays an abstract parameter `parse : String → Option
ConventionalMessage` (`Ok`/`Err` of the Rust `FromStr` collapsed to
`some`/`none`); the data types it produces are embedded from `src/message.rs`.
A commit, as `extract_messages` consumes it, is its id, its parent count and
its optional (`None` when not valid UTF-8) raw message. -/

/-- `CommitType` (`src/message.rs`). -/
inductive CommitType where
  | ContinuousIntegration
  | Build
  | BugFix
  | Documentation
  | Feature
  | Performance
  | Refactoring
  | Style
  | Test
  | Other (s : String)
deriving DecidableEq, Repr

/-- `CommitType::as_str`. -/
def CommitType.as_str : CommitType → String
  | .ContinuousIntegration => "ci"
  | .Build => "build"
  | .BugFix => "fix"
  | .Documentation => "docs"
  | .Feature => "feat"
  | .Performance => "perf"
  | .Refactoring => "refactor"
  | .Style => "style"
  | .Test => "test"
  | .Other s => s

/-- `ConventionalMessage` (`src/message.rs`); `CommitScope` wraps a string. -/
structure ConventionalMessage where
  ctype : CommitType
  scope : Option String
  is_breaking : Bool
  summary : String
  body : Option String
  trailers : List (String × String)
deriving DecidableEq, Repr

/-- The view of a `git2::Commit` that `extract_messages` reads: `commit.id()`,
`commit.parent_count()` and `commit.message()` (`None` when the raw bytes are
not valid UTF-8). -/
structure Commit where
  id : String
  parent_count : Nat
  message : Option String
deriving DecidableEq, Repr

/-- The body of the `for object in walker` loop of `Project::extract_messages`:
a commit with more than one parent is added to the new sentinels; a commit
whose message parses is kept — subject, when `team` is set, to its trailers
containing a pair with key exactly `"team"` and value exactly the filter
(both compared case-sensitively). -/
def extractStep (parse : String → Option ConventionalMessage)
    (team : Option String) (acc : List ConventionalMessage × Sentinels)
    (commit : Commit) : List ConventionalMessage × Sentinels :=
  let acc := if 1 < commit.parent_count then (acc.1, insert commit.id acc.2) else acc
  match commit.message with
  | some raw_message =>
    match parse raw_message with
    | some message =>
      match team with
      | some t =>
        if message.trailers.any fun kv => kv.1 == "team" && kv.2 == t then
          (acc.1 ++ [message], acc.2)
        else acc
      | none => (acc.1 ++ [message], acc.2)
    | none => acc
  | none => acc

/-- `Project::extract_messages`: fold the loop body over the walker's commits
in traversal order, starting from empty messages and empty new sentinels. -/
def extract_messages (parse : String → Option ConventionalMessage)
    (team : Option String) (walker : List Commit) :
    List ConventionalMessage × Sentinels :=
  walker.foldl (extractStep parse team) ([], ∅)

/-- The message one commit contributes (if any): its raw message must exist,
parse, and pass the team filter. -/
def keptMessage (parse : String → Option ConventionalMessage)
    (team : Option String) (c : Commit) : Option ConventionalMessage :=
  match c.message with
  | none => none
  | some raw_message =>
    match parse raw_message with
    | none => none
    | some message =>
      match team with
      | none => some message
      | some t =>
        if message.trailers.any fun kv => kv.1 == "team" && kv.2 == t then
          some message
        else none

theorem extractStep_eq (parse : String → Option ConventionalMessage)
    (team : Option String) (acc : List ConventionalMessage × Sentinels)
    (c : Commit) :
    extractStep parse team acc c
      = (acc.1 ++ (keptMessage parse team c).toList,
         if 1 < c.parent_count then insert c.id acc.2 else acc.2) := by
  unfold extractStep keptMessage
  cases hm : c.message with
  | none => by_cases hp : 1 < c.parent_count <;> simp [hp]
  | some raw =>
    cases hpr : parse raw with
    | none => by_cases hp : 1 < c.parent_count <;> simp [hpr, hp]
    | some message =>
      cases team with
      | none => by_cases hp : 1 < c.parent_count <;> simp [hpr, hp]
      | some t =>
        cases hany : message.trailers.any fun kv => kv.1 == "team" && kv.2 == t <;>
          by_cases hp : 1 < c.parent_count <;> simp [hpr, hp, hany]

theorem extract_messages_foldl_characterization
    (parse : String → Option ConventionalMessage) (team : Option String)
    (walker : List Commit) :
    ∀ acc : List ConventionalMessage × Sentinels,
      walker.foldl (extractStep parse team) acc
        = (acc.1 ++ walker.filterMap (keptMessage parse team),
           walker.foldl (fun s c => if 1 < c.parent_count then insert c.id s else s)
             acc.2) := by
  induction walker with
  | nil => intro acc; simp
  | cons c rest ih =>
    intro acc
    simp only [List.foldl_cons, List.filterMap_cons]
    rw [extractStep_eq, ih]
    cases hk : keptMessage parse team c <;> simp [hk]

theorem mem_sentinel_foldl (walker : List Commit) (x : String) :
    ∀ s : Sentinels,
      (x ∈ walker.foldl (fun s c => if 1 < c.parent_count then insert c.id s else s) s
        ↔ x ∈ s ∨ ∃ c ∈ walker, 1 < c.parent_count ∧ c.id = x) := by
  induction walker with
  | nil => intro s; simp
  | cons c rest ih =>
    intro s
    simp only [List.foldl_cons]
    by_cases hp : 1 < c.parent_count
    · rw [if_pos hp, ih (insert c.id s)]
      simp only [Finset.mem_insert, List.mem_cons]
      constructor
      · rintro ((hx | hx) | ⟨c', hc', h1, h2⟩)
        · exact Or.inr ⟨c, Or.inl rfl, hp, hx.symm⟩
        · exact Or.inl hx
        · exact Or.inr ⟨c', Or.inr hc', h1, h2⟩
      · rintro (hx | ⟨c', hc' | hc', h1, h2⟩)
        · exact Or.inl (Or.inr hx)
        · subst hc'; exact Or.inl (Or.inl h2.symm)
        · exact Or.inr ⟨c', hc', h1, h2⟩
    · rw [if_neg hp, ih s]
      simp only [List.mem_cons]
      constructor
      · rintro (hx | ⟨c', hc', h1, h2⟩)
        · exact Or.inl hx
        · exact Or.inr ⟨c', Or.inr hc', h1, h2⟩
      · rintro (hx | ⟨c', hc' | hc', h1, h2⟩)
        · exact Or.inl hx
        · subst hc'; exact absurd h1 hp
        · exact Or.inr ⟨c', hc', h1, h2⟩

theorem extract_messages_fst (parse : String → Option ConventionalMessage)
    (team : Option String) (walker : List Commit) :
    (extract_messages parse team walker).1
      = walker.filterMap (keptMessage parse team) := by
  have := extract_messages_foldl_characterization parse team walker ([], ∅)
  unfold extract_messages
  rw [this]
  simp

theorem extract_messages_snd (parse : String → Option ConventionalMessage)
    (team : Option String) (walker : List Commit) (x : String) :
    x ∈ (extract_messages parse team walker).2
      ↔ ∃ c ∈ walker, 1 < c.parent_count ∧ c.id = x := by
  have := extract_messages_foldl_characterization parse team walker ([], ∅)
  unfold extract_messages
  rw [this]
  simpa using mem_sentinel_foldl walker x ∅

/-- C6: (1) the new-sentinel set returned by `extract_messages` is exactly the
set of ids of walked commits with more than one parent; (2) a commit whose
message is absent or fails conventional parsing contributes no message and
causes no error (the extraction is total); (3) with a team filter set, a
parsed message is kept iff its trailers contain a pair with key exactly
`"team"` and value exactly the filter (case-sensitive both ways); with no
filter every parsed message is kept. -/
theorem extract_messages_spec (parse : String → Option ConventionalMessage)
    (team : Option String) (t : String) (walker : List Commit) (c : Commit) :
    (∀ x, x ∈ (extract_messages parse team walker).2
        ↔ ∃ c' ∈ walker, 1 < c'.parent_count ∧ c'.id = x) ∧
      (c.message.bind parse = none →
        (extract_messages parse team (walker ++ [c])).1
          = (extract_messages parse team walker).1) ∧
      (∀ m, c.message.bind parse = some m →
        (extract_messages parse (some t) (walker ++ [c])).1
            = (extract_messages parse (some t) walker).1
              ++ (if ∃ kv ∈ m.trailers, kv.1 = "team" ∧ kv.2 = t then [m] else [])
          ∧ (extract_messages parse none (walker ++ [c])).1
            = (extract_messages parse none walker).1 ++ [m]) := by
  refine ⟨extract_messages_snd parse team walker, ?_, ?_⟩
  · intro hnone
    rw [extract_messages_fst, extract_messages_fst, List.filterMap_append]
    have : keptMessage parse team c = none := by
      cases hm : c.message with
      | none => simp [keptMessage, hm]
      | some raw =>
        rw [hm] at hnone
        simp only [Option.some_bind] at hnone
        simp [keptMessage, hm, hnone]
    simp [this]
  · intro m hsome
    obtain ⟨raw, hm, hpr⟩ : ∃ raw, c.message = some raw ∧ parse raw = some m := by
      cases hm : c.message with
      | none => rw [hm] at hsome; simp at hsome
      | some raw =>
        rw [hm] at hsome
        simp only [Option.some_bind] at hsome
        exact ⟨raw, rfl, hsome⟩
    constructor
    · rw [extract_messages_fst, extract_messages_fst, List.filterMap_append]
      have hbool : (m.trailers.any fun kv => kv.1 == "team" && kv.2 == t) = true
          ↔ ∃ kv ∈ m.trailers, kv.1 = "team" ∧ kv.2 = t := by
        simp [List.any_eq_true]
      have hkept : keptMessage parse (some t) c
          = if ∃ kv ∈ m.trailers, kv.1 = "team" ∧ kv.2 = t then some m else none := by
        by_cases hex : ∃ kv ∈ m.trailers, kv.1 = "team" ∧ kv.2 = t
        · simp [keptMessage, hm, hpr, hbool.mpr hex, hex]
        · have hneg : ¬ (m.trailers.any fun kv => kv.1 == "team" && kv.2 == t) = true :=
            fun hc => hex (hbool.mp hc)
          simp [keptMessage, hm, hpr, hneg, hex]
      by_cases hex : ∃ kv ∈ m.trailers, kv.1 = "team" ∧ kv.2 = t
      · simp [hkept, hex]
      · simp [hkept, hex]
    · rw [extract_messages_fst, extract_messages_fst, List.filterMap_append]
      have hkept : keptMessage parse none c = some m := by
        simp [keptMessage, hm, hpr]
      simp [hkept]

/-! ## Hierarchical grouper (`src/changelog.rs`)

`IndexMap<K, V>` is modelled as an association list in insertion order:
lookup scans for the key, updating an existing key keeps its position, a new
key is appended at the end.  `HierarchicalBuckets::insert` reverses the key
vector and `insert_helper` pops keys from the vector's end, so the keys are
consumed front to back; the embedding's `insert_helper` takes the keys in
that consumption order (head = next key), the double reversal cancelling. -/

/-- `ChangeLogEntry` (`src/changelog.rs`). -/
structure ChangeLogEntry where
  origin : String
  branch : String
  message : ConventionalMessage
deriving DecidableEq, Repr

/-- `CommitField` (`src/changelog.rs`). -/
inductive CommitField where
  | Scope
  | Branch
  | Origin
  | CommitType
deriving DecidableEq, Repr

/-- `ChangeLogEntry::get`: the string key a field selector extracts. -/
def ChangeLogEntry.get (e : ChangeLogEntry) : CommitField → String
  | .Scope => e.message.scope.getD ""
  | .Branch => e.branch
  | .Origin => e.origin
  | .CommitType => e.message.ctype.as_str

/-- `HierarchicalBuckets<String, V>`: either an index node (`IndexMap` in
insertion order) or a leaf bucket. -/
inductive HierarchicalBuckets (V : Type) where
  | Index : List (String × HierarchicalBuckets V) → HierarchicalBuckets V
  | Bucket : List V → HierarchicalBuckets V

/-- `IndexMap::get` on the insertion-order association-list model. -/
def indexGet {V : Type} (index : List (String × V)) (key : String) : Option V :=
  match index with
  | [] => none
  | (k, v) :: rest => if k = key then some v else indexGet rest key

/-- In-place update of an existing key (`IndexMap::get_mut` followed by
mutation): the key keeps its position, other entries are untouched. -/
def indexSet {V : Type} (index : List (String × V)) (key : String) (v : V) :
    List (String × V) :=
  match index with
  | [] => []
  | (k, v') :: rest => if k = key then (k, v) :: rest else (k, v') :: indexSet rest key v

/-- `HierarchicalBuckets::insert_helper`, with the keys listed in consumption
order (the source pops them one by one off the reversed vector): descend or
create the child for the first key, append the value at an empty-key bucket,
and report an `InvalidIndex` inconsistency otherwise. -/
def HierarchicalBuckets.insert_helper {V : Type} :
    HierarchicalBuckets V → List String → V → Except String (HierarchicalBuckets V)
  | .Index index, key :: rest, value =>
    match indexGet index key with
    | some child =>
      match child.insert_helper rest value with
      | .ok child' => .ok (.Index (indexSet index key child'))
      | .error e => .error e
    | none =>
      let child : HierarchicalBuckets V :=
        if rest.isEmpty then .Bucket [] else .Index []
      match child.insert_helper rest value with
      | .ok child' => .ok (.Index (index ++ [(key, child')]))
      | .error e => .error e
  | .Bucket bucket, [], value => .ok (.Bucket (bucket ++ [value]))
  | .Bucket _, key :: _, _ =>
    .error ("expected index on key " ++ key ++ ", found bucket")
  | .Index _, [], _ => .error "expected bucket, found index"

/-- `HierarchicalBuckets::insert`: the `keys.reverse()` of the source composed
with pop-from-the-end consumption is the identity on the key order, so the
helper receives the keys as given. -/
def HierarchicalBuckets.insert {V : Type} (b : HierarchicalBuckets V)
    (keys : List String) (value : V) : Except String (HierarchicalBuckets V) :=
  b.insert_helper keys value

/-- `ChangeLog` (`src/changelog.rs`). -/
structure ChangeLog where
  group_by : List CommitField
  index : HierarchicalBuckets ChangeLogEntry

/-- `ChangeLog::new`: a flat bucket when no grouping fields are configured,
an empty index node otherwise. -/
def ChangeLog.new (group_by : List CommitField) : ChangeLog :=
  { group_by := group_by,
    index := if group_by.isEmpty then .Bucket [] else .Index [] }

/-- `ChangeLog::insert`: derive one key per configured field, in order, and
insert the entry at that key path. -/
def ChangeLog.insert (cl : ChangeLog) (entry : ChangeLogEntry) :
    Except String ChangeLog :=
  match cl.index.insert (cl.group_by.map fun field => entry.get field) entry with
  | .ok index => .ok { cl with index := index }
  | .error e => .error e

/-- The `for change_log_entry in change_log_entries` loop of `run`
(main.rs 106–108): insert every entry in order, stopping at the first error. -/
def insertAll (cl : ChangeLog) (entries : List ChangeLogEntry) :
    Except String ChangeLog :=
  match entries with
  | [] => .ok cl
  | e :: rest =>
    match cl.insert e with
    | .ok cl' => insertAll cl' rest
    | .error err => .error err

/-- A `feat` entry used by the C7 computation. -/
def featE1 : ChangeLogEntry :=
  ⟨"origin", "main", ⟨.Feature, none, false, "add login", none, []⟩⟩

/-- A second `feat` entry used by the C7 computation. -/
def featE2 : ChangeLogEntry :=
  ⟨"origin", "main", ⟨.Feature, none, false, "add logout", none, []⟩⟩

/-- A `fix` entry used by the C7 computation. -/
def fixE : ChangeLogEntry :=
  ⟨"origin", "main", ⟨.BugFix, none, false, "reject expired tokens", none, []⟩⟩

/-- C7: grouping by `[commit-type]`, two `feat` entries and one `fix` entry
produce exactly two top-level keys — `feat` with a two-element leaf and `fix`
with a one-element leaf — and the top-level keys appear in first-insertion
order, not lexical order: inserting the `fix` entry first puts `fix` before
`feat`, inserting the `feat` entries first puts `feat` before `fix`. -/
theorem changelog_groups_by_first_insertion :
    (insertAll (ChangeLog.new [.CommitType]) [fixE, featE1, featE2]).map ChangeLog.index
        = .ok (.Index [("fix", .Bucket [fixE]), ("feat", .Bucket [featE1, featE2])]) ∧
      (insertAll (ChangeLog.new [.CommitType]) [featE1, featE2, fixE]).map ChangeLog.index
        = .ok (.Index [("feat", .Bucket [featE1, featE2]), ("fix", .Bucket [fixE])]) :=
  ⟨rfl, rfl⟩

/-- Depth consistency: every path of the tree reaches a bucket at exactly the
given depth. -/
def depthOk {V : Type} : Nat → HierarchicalBuckets V → Prop
  | 0, .Bucket _ => True
  | 0, .Index _ => False
  | _ + 1, .Bucket _ => False
  | n + 1, .Index index => ∀ p ∈ index, depthOk n p.2

theorem indexGet_mem {V : Type} (index : List (String × V)) (key : String) (v : V)
    (h : indexGet index key = some v) : (key, v) ∈ index := by
  induction index with
  | nil => simp [indexGet] at h
  | cons p rest ih =>
    obtain ⟨k, w⟩ := p
    by_cases hk : k = key
    · subst hk
      simp [indexGet] at h
      simp [h]
    · simp [indexGet, hk] at h
      exact List.mem_cons_of_mem _ (ih h)

theorem mem_indexSet {V : Type} (index : List (String × V)) (key : String) (v : V)
    (p : String × V) (h : p ∈ indexSet index key v) : p.2 = v ∨ p ∈ index := by
  induction index with
  | nil => simp [indexSet] at h
  | cons q rest ih =>
    obtain ⟨k, w⟩ := q
    by_cases hk : k = key
    · subst hk
      simp only [indexSet, if_pos rfl] at h
      rcases List.mem_cons.mp h with rfl | h
      · exact Or.inl rfl
      · exact Or.inr (List.mem_cons_of_mem _ h)
    · simp only [indexSet, if_neg hk] at h
      rcases List.mem_cons.mp h with rfl | h
      · exact Or.inr (List.mem_cons_self _ _)
      · rcases ih h with h' | h'
        · exact Or.inl h'
        · exact Or.inr (List.mem_cons_of_mem _ h')

theorem insert_helper_ok {V : Type} (keys : List String) :
    ∀ (b : HierarchicalBuckets V) (v : V), depthOk keys.length b →
      ∃ b', b.insert_helper keys v = .ok b' ∧ depthOk keys.length b' := by
  induction keys with
  | nil =>
    intro b v hd
    cases b with
    | Index index => exact absurd hd (by simp [depthOk])
    | Bucket bucket =>
      exact ⟨.Bucket (bucket ++ [v]), rfl, trivial⟩
  | cons key rest ih =>
    intro b v hd
    cases b with
    | Bucket bucket => exact absurd hd (by simp [depthOk])
    | Index index =>
      have hchildren : ∀ p ∈ index, depthOk rest.length p.2 := hd
      cases hg : indexGet index key with
      | some child =>
        have hcd : depthOk rest.length child :=
          hchildren (key, child) (indexGet_mem index key child hg)
        obtain ⟨child', hok, hcd'⟩ := ih child v hcd
        refine ⟨.Index (indexSet index key child'), ?_, ?_⟩
        · simp only [HierarchicalBuckets.insert_helper, hg, hok]
        · intro p hp
          rcases mem_indexSet index key child' p hp with h | h
          · rw [h]; exact hcd'
          · exact hchildren p h
      | none =>
        have hcd : depthOk rest.length
            (if rest.isEmpty then HierarchicalBuckets.Bucket ([] : List V)
             else HierarchicalBuckets.Index []) := by
          cases rest with
          | nil => simp [depthOk]
          | cons r rs => simp [depthOk]
        obtain ⟨child', hok, hcd'⟩ := ih _ v hcd
        refine ⟨.Index (index ++ [(key, child')]), ?_, ?_⟩
        · simp only [HierarchicalBuckets.insert_helper, hg, hok]
        · intro p hp
          rcases List.mem_append.mp hp with h | h
          · exact hchildren p h
          · rcases List.mem_singleton.mp h with rfl
            exact hcd'

theorem changelog_new_depthOk (group_by : List CommitField) :
    depthOk group_by.length (ChangeLog.new group_by).index := by
  cases group_by with
  | nil => simp [ChangeLog.new, depthOk]
  | cons f fs => simp [ChangeLog.new, depthOk]

theorem insertAll_ok (entries : List ChangeLogEntry) :
    ∀ cl : ChangeLog, depthOk cl.group_by.length cl.index →
      ∃ cl', insertAll cl entries = .ok cl' ∧ cl'.group_by = cl.group_by ∧
        depthOk cl.group_by.length cl'.index := by
  induction entries with
  | nil => exact fun cl hd => ⟨cl, rfl, rfl, hd⟩
  | cons e rest ih =>
    intro cl hd
    have hlen : (cl.group_by.map fun field => e.get field).length
        = cl.group_by.length := by simp
    obtain ⟨idx', hok, hd'⟩ :=
      insert_helper_ok (cl.group_by.map fun field => e.get field) cl.index e
        (by rw [hlen]; exact hd)
    have hins : cl.insert e = .ok { cl with index := idx' } := by
      unfold ChangeLog.insert HierarchicalBuckets.insert
      rw [hok]
    obtain ⟨cl', hall, hgb, hd''⟩ := ih { cl with index := idx' }
      (by rw [hlen] at hd'; exact hd')
    refine ⟨cl', ?_, hgb, hd''⟩
    · unfold insertAll
      rw [hins]
      exact hall

theorem insertAll_flat (entries : List ChangeLogEntry) :
    ∀ acc : List ChangeLogEntry,
      insertAll ⟨[], .Bucket acc⟩ entries = .ok ⟨[], .Bucket (acc ++ entries)⟩ := by
  induction entries with
  | nil => intro acc; simp [insertAll]
  | cons e rest ih =>
    intro acc
    have hstep : insertAll ⟨[], .Bucket acc⟩ (e :: rest)
        = insertAll ⟨[], .Bucket (acc ++ [e])⟩ rest := rfl
    rw [hstep, ih (acc ++ [e])]
    simp

/-- C8: a `ChangeLog` built by `ChangeLog::new` with `N` grouping fields and
fed only through `ChangeLog::insert` (which always derives exactly `N` keys
via the configured field list) never hits the `InvalidIndex` branch — every
insertion sequence succeeds — and with `N = 0` all inserted entries accumulate
in one single flat leaf list, in insertion order. -/
theorem changelog_insert_never_fails (group_by : List CommitField)
    (entries : List ChangeLogEntry) :
    (∃ cl, insertAll (ChangeLog.new group_by) entries = .ok cl) ∧
      insertAll (ChangeLog.new []) entries = .ok ⟨[], .Bucket entries⟩ := by
  constructor
  · obtain ⟨cl, hok, -, -⟩ :=
      insertAll_ok entries (ChangeLog.new group_by) (changelog_new_depthOk group_by)
    exact ⟨cl, hok⟩
  · have := insertAll_flat entries []
    simpa [ChangeLog.new] using this


/-! ## Orchestrator aggregation and fail-fast (`src/main.rs` 98–103, 232–241)

A repository worker task's outcome is `(entries, origin, repo_snapshot)` or an
error.  `process_projects` joins the workers and then, single-threaded, folds
their results: the first `Err` aborts the whole aggregation through `?`; only
a fully `Ok` batch yields `(all_change_sets, builder.build())`.  Back in
`run`, `process_projects(..)?` again propagates the error before
`history.push(snapshot)` and `history.to_file(..)` are reached, so on any task
error the persisted history is exactly the loaded one. -/

/-- The result of one repository worker task. -/
abbrev TaskResult := List ChangeLogEntry × String × RepositorySnapshot

def process_projects_loop (results : List (Except String TaskResult))
    (builder : SnapshotBuilder) (all_change_sets : List ChangeLogEntry) :
    Except String (List ChangeLogEntry × Snapshot) :=
  match results with
  | [] => .ok (all_change_sets, builder.build)
  | r :: rest =>
    match r with
    | .error e => .error e
    | .ok (change_sets, origin, repo_snapshot) =>
      process_projects_loop rest (builder.add_repository_snapshot origin repo_snapshot)
        (all_change_sets ++ change_sets)

/-- The sequential aggregation at the end of `process_projects`
(main.rs 232–241). -/
def process_projects (results : List (Except String TaskResult)) :
    Except String (List ChangeLogEntry × Snapshot) :=
  process_projects_loop results SnapshotBuilder.new []

/-- The Projects branch of `run` after the workers complete (main.rs 98–103):
on success, when `save_state` is set, the snapshot is pushed and the history
file rewritten with the returned history; on error the function returns before
any history mutation, so the persisted history stays as loaded.  The first
component of the pair is the history as persisted after the call. -/
def run_projects (history : SnapshotHistory) (save_state : Bool)
    (results : List (Except String TaskResult)) :
    SnapshotHistory × Except String (List ChangeLogEntry × Snapshot) :=
  match process_projects results with
  | .error e => (history, .error e)
  | .ok (entries, snapshot) =>
    (if save_state then history.push snapshot else history, .ok (entries, snapshot))

theorem process_projects_loop_error (results : List (Except String TaskResult))
    (e : String) (he : Except.error e ∈ results) :
    ∀ (builder : SnapshotBuilder) (all_change_sets : List ChangeLogEntry),
      ∃ e', process_projects_loop results builder all_change_sets = .error e' := by
  induction results with
  | nil => simp at he
  | cons r rest ih =>
    intro builder all_change_sets
    rcases List.mem_cons.mp he with rfl | hmem
    · exact ⟨e, rfl⟩
    · cases r with
      | error e'' => exact ⟨e'', rfl⟩
      | ok v =>
        obtain ⟨cs, origin, rs⟩ := v
        exact ih hmem _ _

/-- C9: if any repository task of a multi-project run returns an error, the
whole run aborts with an error before any snapshot is pushed and before the
history file is written — the persisted history is exactly the one that was
loaded, whatever the save-state flag. -/
theorem run_aborts_before_history_write (history : SnapshotHistory)
    (save_state : Bool) (results : List (Except String TaskResult))
    (h : ∃ e, Except.error e ∈ results) :
    (run_projects history save_state results).1 = history ∧
      ∃ e', (run_projects history save_state results).2 = .error e' := by
  obtain ⟨e, he⟩ := h
  obtain ⟨e', herr⟩ :=
    process_projects_loop_error results e he SnapshotBuilder.new []
  have hpp : process_projects results = .error e' := herr
  unfold run_projects
  rw [hpp]
  exact ⟨rfl, e', rfl⟩

/-- Witness for C9: one failing task among two, with a non-empty loaded
history and save-state on. -/
theorem run_aborts_before_history_write_witness :
    (run_projects ⟨[⟨["r"], []⟩]⟩ true
        [Except.ok ([], "r", []), Except.error "fetch failed"]).1
        = ⟨[⟨["r"], []⟩]⟩ ∧
      ∃ e', (run_projects ⟨[⟨["r"], []⟩]⟩ true
        [Except.ok ([], "r", []), Except.error "fetch failed"]).2 = .error e' :=
  run_aborts_before_history_write ⟨[⟨["r"], []⟩]⟩ true
    [Except.ok ([], "r", []), Except.error "fetch failed"]
    ⟨"fetch failed", by simp⟩


end Resume
